import Mathlib

/-! Shallow embedding of the ingestion script (cms_hospitals_ingest.py) and of the
specification-level descriptions of its components, together with theorems
relating the two.

Modelling conventions:
- Python dictionaries holding the run state are modelled as association lists
  with at most one entry per key (assignment replaces the existing entry).
- Python exceptions are modelled with an explicit error type; a function that
  can raise returns an `Except` value.
- The calls out to the network and the filesystem (pandas read_csv, to_csv)
  are modelled as an explicit environment of oracles.  A read either yields a
  table or raises; a write either succeeds or raises (no partial file).
- The thread pool of `main` is modelled as a sequential fold in submission
  order: the tasks share only the metadata dictionary, and each task performs
  at most one assignment to it, keyed by its own dataset identifier.
- `str.lower()` is modelled on the ASCII range; the catalog header strings and
  the theme strings the script compares are ASCII.
-/

namespace CMSIngest

/-- Python exception classes that the script can raise. -/
inductive PyErr
  | typeError
  | indexError
  | readError
  | writeError
  deriving DecidableEq, Repr

/-- One element of the `distribution` field of a dataset descriptor; the
`downloadURL` key may be absent. -/
structure Distribution where
  downloadURL : Option String
  deriving DecidableEq, Repr

/-- A dataset descriptor as returned by the catalog; every field is read with
`dict.get`, so every field may be absent. -/
structure Dataset where
  identifier : Option String
  title : Option String
  theme : Option String
  modified : Option String
  distribution : Option (List Distribution)
  deriving DecidableEq, Repr

/-- A parsed tabular payload: header row and data rows. -/
structure Table where
  columns : List String
  rows : List (List String)
  deriving DecidableEq, Repr

/-- The in-memory value of `metadata["datasets"]`: a dictionary from dataset
identifier to last-processed modification timestamp.  Keys and values are
`Option String` because both the identifier and the timestamp are read with
`dict.get` and may be `None`. -/
abbrev Metadata := List (Option String × Option String)

/-- Dictionary lookup, first matching entry. -/
def mLookup : Metadata → Option String → Option (Option String)
  | [], _ => none
  | (k', v) :: rest, k => if k' = k then some v else mLookup rest k

/-- Dictionary assignment `d[k] = v`: replaces the existing entry for `k`,
otherwise appends a new one. -/
def mInsert : Metadata → Option String → Option String → Metadata
  | [], k, v => [(k, v)]
  | (k', v') :: rest, k, v =>
    if k' = k then (k, v) :: rest else (k', v') :: mInsert rest k v

/-- The target alphabet `[a-z0-9]` of the column normalizer. -/
def isLowerAlnum (c : Char) : Bool :=
  ('a' ≤ c && c ≤ 'z') || ('0' ≤ c && c ≤ '9')

/-- The straight apostrophe, U+0027. -/
def squote : Char := Char.ofNat 39

/-- ASCII fragment of Python `str.lower()`. -/
def lowerChar (c : Char) : Char :=
  if 'A' ≤ c && c ≤ 'Z' then Char.ofNat (c.toNat + 32) else c

/-- Embedding of `re.sub(r"[chars]", "", col)` for the two apostrophe
variants: delete every curly or straight apostrophe. -/
def stripApostrophes (l : List Char) : List Char :=
  l.filter (fun c => !(c == '’' || c == squote))

/-- Embedding of `re.sub(r"[^a-z0-9]+", "_", col)`: every maximal run of
characters outside the target alphabet becomes a single underscore.  The
boolean argument records whether the previous character belonged to such a
run (so its underscore has already been emitted). -/
def collapseAux : Bool → List Char → List Char
  | _, [] => []
  | inRun, c :: cs =>
    if isLowerAlnum c then c :: collapseAux false cs
    else if inRun then collapseAux true cs
    else '_' :: collapseAux true cs

/-- Embedding of `col.strip("_")`: remove leading and trailing underscores. -/
def trimUnderscores (l : List Char) : List Char :=
  (l.dropWhile (fun c => c == '_')).rdropWhile (fun c => c == '_')

/-- Embedding of `to_snake_case` (source lines 65 to 77): lowercase, delete
apostrophes, replace each maximal run outside `[a-z0-9]` by one underscore,
strip leading and trailing underscores. -/
def to_snake_case (s : String) : String :=
  let col := s.toList.map lowerChar
  let col := stripApostrophes col
  let col := collapseAux false col
  String.mk (trimUnderscores col)

/-- Maximal runs of characters of the target alphabet, in order.  Used by the
specification-level description of the normalizer. -/
def maximalAlnumRuns : List Char → List (List Char)
  | [] => []
  | c :: cs =>
    if isLowerAlnum c then
      (c :: cs.takeWhile isLowerAlnum) :: maximalAlnumRuns (cs.dropWhile isLowerAlnum)
    else
      maximalAlnumRuns cs
termination_by l => l.length
decreasing_by
  · exact Nat.lt_succ_of_le (List.Sublist.length_le (List.dropWhile_sublist _))
  · exact Nat.lt_succ_of_le (Nat.le_refl _)

/-- Join blocks with single underscores. -/
def joinUnderscore : List (List Char) → List Char
  | [] => []
  | [b] => b
  | b :: bs => b ++ '_' :: joinUnderscore bs

/-- Modelled from the words of spec section 4.2: the normalized form of a
header is its maximal runs of target-alphabet characters (after lowercasing
and apostrophe deletion), joined by single underscores; equivalently, each
maximal run of characters outside the alphabet is replaced by one underscore
and leading and trailing underscores are trimmed. -/
def normalize_spec (s : String) : String :=
  String.mk (joinUnderscore (maximalAlnumRuns (stripApostrophes (s.toList.map lowerChar))))

/-- Python `needle in hay` on strings: contiguous substring test. -/
def strIn (needle : List Char) : List Char → Bool
  | [] => needle.isEmpty
  | c :: t => needle.isPrefixOf (c :: t) || strIn needle t

/-- Python `<` on strings: lexicographic comparison by code point. -/
def lexLt : List Char → List Char → Bool
  | [], [] => false
  | [], _ :: _ => true
  | _ :: _, [] => false
  | a :: as, b :: bs => if a < b then true else if b < a then false else lexLt as bs

/-- Python comparison `a > b` where each operand is a string or `None`:
string against string is lexicographic; any comparison involving `None`
raises `TypeError`. -/
def pyGtOpt : Option String → Option String → Except PyErr Bool
  | some a, some b => .ok (lexLt b.toList a.toList)
  | _, _ => .error .typeError

/-- Embedding of `is_hospital_dataset` (source lines 92 to 98). -/
def is_hospital_dataset (dataset : Dataset) : Bool :=
  let theme := dataset.theme.getD ""
  strIn "hospital".toList (theme.toList.map lowerChar)

/-- Embedding of `needs_update` (source lines 101 to 114). -/
def needs_update (dataset : Dataset) (metadata : Metadata) : Except PyErr Bool :=
  let dataset_id := dataset.identifier
  let last_modified := dataset.modified
  match mLookup metadata dataset_id with
  | none => .ok true
  | some stored => pyGtOpt last_modified stored

/-- The oracles for the effectful calls of `process_dataset`: `pd.read_csv`
on a URL (download plus parse, may raise) and `DataFrame.to_csv` on a path
(may raise; on failure no file is left behind in this model). -/
structure Env where
  read_csv : String → Except PyErr Table
  to_csv : String → Table → Option PyErr

/-- Python string interpolation of an optional value: `None` prints as the
four-letter word. -/
def pyShowOpt : Option String → String
  | none => "None"
  | some s => s

/-- Embedding of `process_dataset` (source lines 120 to 148).  The result is
the returned value (the output path, or `none` for the skip return), the
metadata dictionary after the call, and the list of files written by the
call. -/
def process_dataset (env : Env) (dataset : Dataset) (metadata : Metadata) :
    Except PyErr (Option String) × Metadata × List (String × Table) :=
  let dataset_id := dataset.identifier
  let last_modified := dataset.modified
  match dataset.distribution.getD [⟨none⟩] with
  | [] => (.error .indexError, metadata, [])
  | dist :: _ =>
    match dist.downloadURL with
    | none => (.ok none, metadata, [])
    | some download_url =>
      if download_url = "" then (.ok none, metadata, [])
      else
        match env.read_csv download_url with
        | .error e => (.error e, metadata, [])
        | .ok df =>
          let clean : Table := ⟨df.columns.map to_snake_case, df.rows⟩
          let output_path := "output/" ++ pyShowOpt dataset_id ++ ".csv"
          match env.to_csv output_path clean with
          | some e => (.error e, metadata, [])
          | none =>
            (.ok (some output_path),
             mInsert metadata dataset_id last_modified,
             [(output_path, clean)])

/-- Embedding of the selection comprehension of `main` (source lines 162 to
165): `is_hospital_dataset(d) and needs_update(d, metadata)`, left to right,
with an exception from `needs_update` propagating out. -/
def selectDatasets (datasets : List Dataset) (metadata : Metadata) :
    Except PyErr (List Dataset) :=
  match datasets with
  | [] => .ok []
  | d :: ds =>
    if is_hospital_dataset d then
      match needs_update d metadata with
      | .error e => .error e
      | .ok b =>
        match selectDatasets ds metadata with
        | .error e => .error e
        | .ok rest => .ok (if b then d :: rest else rest)
    else selectDatasets ds metadata

/-- All submitted tasks run to completion (the pool is joined even when the
orchestrator later re-raises); the shared metadata dictionary is threaded
through in submission order; the errors raised by tasks are collected in
submission order. -/
def runTasks (env : Env) (datasets : List Dataset) (metadata : Metadata) :
    Metadata × List (String × Table) × List PyErr :=
  match datasets with
  | [] => (metadata, [], [])
  | d :: ds =>
    match process_dataset env d metadata with
    | (r, m', fs) =>
      match runTasks env ds m' with
      | (m'', fs', es) =>
        match r with
        | .error e => (m'', fs ++ fs', e :: es)
        | .ok _ => (m'', fs ++ fs', es)

/-- Observable outcome of one `main` run: the exception escaping `main` if
any, the final in-memory metadata, the metadata written to the state file by
`save_metadata` if it was called, the output files written, and whether the
nothing-to-do message was printed. -/
structure RunResult where
  raised : Option PyErr
  inMemory : Metadata
  persisted : Option Metadata
  files : List (String × Table)
  nothingToDo : Bool
  deriving DecidableEq, Repr

/-- Embedding of `main` (source lines 154 to 184).  The catalog and the
loaded state are parameters.  When the selection is empty, `main` returns
before dispatching.  Otherwise every submitted task runs; if any task raised,
the first `future.result()` call that observes a failed future re-raises, the
run unwinds, and `save_metadata` is never reached; only a run with no task
error persists the metadata. -/
def main (env : Env) (datasets : List Dataset) (st : Metadata) : RunResult :=
  match selectDatasets datasets st with
  | .error e => ⟨some e, st, none, [], false⟩
  | .ok [] => ⟨none, st, none, [], true⟩
  | .ok (d :: ds) =>
    match runTasks env (d :: ds) st with
    | (m', fs, []) => ⟨none, m', some m', fs, false⟩
    | (m', fs, e :: _) => ⟨some e, m', none, fs, false⟩

/-- The update predicate of spec section 4.1, as a pure boolean: absent from
the state, or strictly newer than the stored timestamp.  On the descriptors
on which `needs_update` raises no exception this coincides with it. -/
def updPredB (metadata : Metadata) (d : Dataset) : Bool :=
  match mLookup metadata d.identifier with
  | none => true
  | some stored =>
    match d.modified, stored with
    | some lm, some s => lexLt s.toList lm.toList
    | _, _ => false

/-- The combined selection predicate of spec section 4.1. -/
def selPredB (metadata : Metadata) (d : Dataset) : Bool :=
  is_hospital_dataset d && updPredB metadata d

/-- The first distribution of the descriptor exists and carries a usable
(non-empty) download locator. -/
def hasURL (d : Dataset) : Bool :=
  match d.distribution.getD [⟨none⟩] with
  | [] => false
  | dist :: _ =>
    match dist.downloadURL with
    | none => false
    | some u => !(u == "")

/-- The cumulative effect on the metadata dictionary of the assignments done
by a sequence of successful tasks, in submission order. -/
def foldIns (sel : List Dataset) (st : Metadata) : Metadata :=
  sel.foldl (fun m d => mInsert m d.identifier d.modified) st

/-- An environment in which every download succeeds with a one-column table
and every write succeeds. -/
def envOk : Env := ⟨fun _ => .ok ⟨["A"], [["1"]]⟩, fun _ _ => none⟩

/-- An environment in which every download raises. -/
def envFail : Env := ⟨fun _ => .error .readError, fun _ _ => none⟩

/-- An environment in which exactly the download from "u2" raises. -/
def envC1 : Env :=
  ⟨fun u => if u = "u2" then .error .readError else .ok ⟨["A"], [["1"]]⟩,
   fun _ _ => none⟩

def dOk : Dataset :=
  ⟨some "D1", some "T", some "Hospital Compare", some "2024-02-01", some [⟨some "u1"⟩]⟩

def dOk2 : Dataset :=
  ⟨some "D2", none, some "hospital general", some "2024-03-01", some [⟨some "u3"⟩]⟩

def dFail : Dataset :=
  ⟨some "DF", none, some "Hospitals", some "2024-01-05", some [⟨some "u2"⟩]⟩

/-- A descriptor whose distribution key is present but holds an empty
sequence. -/
def dEmptyDist : Dataset :=
  ⟨some "D0", none, some "Hospitals", some "2024-01-01", some []⟩

/-- A descriptor with no distribution key at all. -/
def dNoDist : Dataset :=
  ⟨some "D3", none, some "Hospital data", some "2024-01-01", none⟩

/-- A descriptor already recorded in the state but carrying no modified
timestamp. -/
def dNoModified : Dataset :=
  ⟨some "D1", none, some "Hospitals", none, none⟩

def cat3 : List Dataset := [dOk, dFail, dOk2]

def tblClean : Table := ⟨["a"], [["1"]]⟩

def m1C1 : Metadata :=
  [(some "D1", some "2024-02-01"), (some "D2", some "2024-03-01")]

def filesC1 : List (String × Table) :=
  [("output/D1.csv", tblClean), ("output/D2.csv", tblClean)]

/-- A state that already records an entry for identifier D1. -/
def stC10 : Metadata := [(some "D1", some "2024-01-01")]

/-!
Lemmas about the column normalizer.
-/

theorem isLowerAlnum_ne_underscore {c : Char} (h : isLowerAlnum c = true) : c ≠ '_' := by
  intro e; subst e; exact absurd h (by decide)

theorem lowerChar_eq_self {c : Char} (h : isLowerAlnum c = true ∨ c = '_') :
    lowerChar c = c := by
  have hAZ : ¬ (('A' ≤ c && c ≤ 'Z') = true) := by
    intro hAZ
    rw [Bool.and_eq_true] at hAZ
    obtain ⟨hA, hZ⟩ := hAZ
    have hA' := of_decide_eq_true hA
    have hZ' := of_decide_eq_true hZ
    rcases h with h | rfl
    · rw [isLowerAlnum, Bool.or_eq_true] at h
      rcases h with h1 | h1 <;> rw [Bool.and_eq_true] at h1 <;> obtain ⟨ha, hb⟩ := h1
      · exact absurd (le_trans (of_decide_eq_true ha) hZ') (by decide)
      · exact absurd (le_trans hA' (of_decide_eq_true hb)) (by decide)
    · exact absurd hZ' (by decide)
  unfold lowerChar
  exact if_neg hAZ

theorem stripApostrophes_eq_self {l : List Char}
    (h : ∀ c ∈ l, isLowerAlnum c = true ∨ c = '_') :
    stripApostrophes l = l := by
  unfold stripApostrophes
  rw [List.filter_eq_self]
  intro c hc
  have h1 : c ≠ '’' := by
    intro e; subst e; rcases h _ hc with h' | h' <;> exact absurd h' (by decide)
  have h2 : c ≠ squote := by
    intro e; subst e; rcases h _ hc with h' | h' <;> exact absurd h' (by decide)
  simp [h1, h2]

theorem collapseAux_mem {l : List Char} :
    ∀ {b : Bool} {c : Char}, c ∈ collapseAux b l → isLowerAlnum c = true ∨ c = '_' := by
  induction l with
  | nil => intro b c hc; simp [collapseAux] at hc
  | cons a as ih =>
    intro b c hc
    by_cases ha : isLowerAlnum a = true
    · simp only [collapseAux, if_pos ha] at hc
      rcases List.mem_cons.mp hc with rfl | hc
      · exact Or.inl ha
      · exact ih hc
    · simp only [collapseAux, if_neg ha] at hc
      cases b with
      | true =>
        simp only [if_pos rfl] at hc
        exact ih hc
      | false =>
        simp only [if_neg Bool.false_ne_true] at hc
        rcases List.mem_cons.mp hc with rfl | hc
        · exact Or.inr rfl
        · exact ih hc

theorem collapseAux_true_eq (l : List Char) :
    collapseAux true l = collapseAux false (l.dropWhile (fun c => !isLowerAlnum c)) := by
  induction l with
  | nil => rfl
  | cons a as ih =>
    by_cases ha : isLowerAlnum a = true
    · rw [List.dropWhile_cons, if_neg (by simp [ha])]
      simp [collapseAux, ha]
    · have ha' : isLowerAlnum a = false := Bool.eq_false_iff.mpr ha
      rw [List.dropWhile_cons, if_pos (by simp [ha'])]
      rw [← ih]
      simp [collapseAux, ha']

theorem collapseAux_good_append (t r : List Char)
    (h : ∀ c ∈ t, isLowerAlnum c = true) :
    collapseAux false (t ++ r) = t ++ collapseAux false r := by
  induction t with
  | nil => rfl
  | cons a as ih =>
    have ha := h a (List.mem_cons_self a as)
    simp only [List.cons_append]
    rw [show collapseAux false (a :: (as ++ r)) = a :: collapseAux false (as ++ r) from by
      simp [collapseAux, ha]]
    rw [ih (fun c hc => h c (List.mem_cons_of_mem _ hc))]

theorem dropWhile_head_false {α : Type} {p : α → Bool} {l : List α} {b : α} {bs : List α}
    (h : l.dropWhile p = b :: bs) : p b = false := by
  induction l with
  | nil => simp at h
  | cons a as ih =>
    rw [List.dropWhile_cons] at h
    by_cases hp : p a = true
    · rw [if_pos hp] at h; exact ih h
    · rw [if_neg hp] at h
      injection h with h1 _
      subst h1
      exact Bool.eq_false_iff.mpr hp

theorem rdropWhile_eq_self_of_ne {l : List Char}
    (h : ∀ c ∈ l, c ≠ '_') :
    l.rdropWhile (fun c => c == '_') = l := by
  rw [List.rdropWhile_eq_self_iff]
  intro hl
  have := h _ (List.getLast_mem hl)
  simp [this]

theorem trim_eq_self {l : List Char} (h : ∀ c ∈ l, c ≠ '_') :
    trimUnderscores l = l := by
  unfold trimUnderscores
  have h1 : l.dropWhile (fun c => c == '_') = l := by
    rw [List.dropWhile_eq_self_iff]
    intro hl
    have := h _ (List.get_mem l 0 hl)
    simpa using this
  rw [h1]
  exact rdropWhile_eq_self_of_ne h

theorem trim_cons_of_good {c : Char} {l : List Char} (h : isLowerAlnum c = true) :
    trimUnderscores (c :: l) = (c :: l).rdropWhile (fun x => x == '_') := by
  unfold trimUnderscores
  rw [List.dropWhile_cons, if_neg]
  simp [isLowerAlnum_ne_underscore h]

theorem trim_underscore_cons (l : List Char) :
    trimUnderscores ('_' :: l) = trimUnderscores l := by
  unfold trimUnderscores
  rw [List.dropWhile_cons, if_pos (by simp)]

theorem rdropWhile_append_of_ne {p : Char → Bool} {Y Z : List Char}
    (h : Z.rdropWhile p ≠ []) :
    (Y ++ Z).rdropWhile p = Y ++ Z.rdropWhile p := by
  have hz : ¬ (Z.reverse.dropWhile p).isEmpty = true := by
    intro he
    apply h
    rw [List.isEmpty_iff] at he
    show (Z.reverse.dropWhile p).reverse = []
    rw [he]; rfl
  show ((Y ++ Z).reverse.dropWhile p).reverse = _
  rw [List.reverse_append, List.dropWhile_append, if_neg hz, List.reverse_append,
    List.reverse_reverse]
  rfl

theorem maximalAlnumRuns_dropWhile (l : List Char) :
    maximalAlnumRuns (l.dropWhile (fun c => !isLowerAlnum c)) = maximalAlnumRuns l := by
  induction l with
  | nil => rfl
  | cons a as ih =>
    by_cases ha : isLowerAlnum a = true
    · rw [List.dropWhile_cons, if_neg (by simp [ha])]
    · have ha' : isLowerAlnum a = false := Bool.eq_false_iff.mpr ha
      rw [List.dropWhile_cons, if_pos (by simp [ha']), ih]
      rw [show maximalAlnumRuns (a :: as) = maximalAlnumRuns as from by
        simp [maximalAlnumRuns, ha']]

theorem maximalAlnumRuns_nil : maximalAlnumRuns [] = [] := by
  simp [maximalAlnumRuns]

theorem trim_collapse_nil :
    trimUnderscores (collapseAux false []) = joinUnderscore (maximalAlnumRuns []) := by
  rw [maximalAlnumRuns_nil]
  rfl

theorem trim_collapse_fuel :
    ∀ (n : Nat) (l : List Char), l.length ≤ n →
      trimUnderscores (collapseAux false l) = joinUnderscore (maximalAlnumRuns l) := by
  intro n
  induction n with
  | zero =>
    intro l hl
    have hnil : l = [] := List.length_eq_zero.mp (Nat.le_zero.mp hl)
    subst hnil; exact trim_collapse_nil
  | succ n ih =>
    intro l hl
    match l with
    | [] => exact trim_collapse_nil
    | c :: cs =>
      have hcs : cs.length ≤ n := Nat.le_of_succ_le_succ (by simpa using hl)
      by_cases hc : isLowerAlnum c = true
      · have htg : ∀ x ∈ cs.takeWhile isLowerAlnum, isLowerAlnum x = true :=
          fun _ hx => List.mem_takeWhile_imp hx
        have hgood : ∀ x ∈ c :: cs.takeWhile isLowerAlnum, isLowerAlnum x = true := by
          intro x hx
          rcases List.mem_cons.mp hx with rfl | hx
          · exact hc
          · exact htg x hx
        have hcoll : collapseAux false (c :: cs)
            = (c :: cs.takeWhile isLowerAlnum) ++ collapseAux false (cs.dropWhile isLowerAlnum) := by
          calc collapseAux false (c :: cs)
              = c :: collapseAux false cs := by simp [collapseAux, hc]
            _ = c :: collapseAux false (cs.takeWhile isLowerAlnum ++ cs.dropWhile isLowerAlnum) := by
                rw [List.takeWhile_append_dropWhile]
            _ = c :: (cs.takeWhile isLowerAlnum ++ collapseAux false (cs.dropWhile isLowerAlnum)) := by
                rw [collapseAux_good_append _ _ htg]
            _ = (c :: cs.takeWhile isLowerAlnum) ++ collapseAux false (cs.dropWhile isLowerAlnum) := rfl
        have hmgr : maximalAlnumRuns (c :: cs)
            = (c :: cs.takeWhile isLowerAlnum) :: maximalAlnumRuns (cs.dropWhile isLowerAlnum) := by
          simp [maximalAlnumRuns, hc]
        rw [hcoll, hmgr]
        cases hdw : cs.dropWhile isLowerAlnum with
        | nil =>
          rw [show collapseAux false ([] : List Char) = [] from rfl, List.append_nil]
          rw [trim_eq_self (fun x hx => isLowerAlnum_ne_underscore (hgood x hx))]
          rw [maximalAlnumRuns_nil]
          rfl
        | cons b bs =>
          have hb : isLowerAlnum b = false := dropWhile_head_false hdw
          have h2 : collapseAux false (b :: bs)
              = '_' :: collapseAux false (bs.dropWhile (fun x => !isLowerAlnum x)) := by
            rw [show collapseAux false (b :: bs) = '_' :: collapseAux true bs from by
              simp [collapseAux, hb], collapseAux_true_eq]
          have h3 : maximalAlnumRuns (b :: bs)
              = maximalAlnumRuns (bs.dropWhile (fun x => !isLowerAlnum x)) := by
            rw [maximalAlnumRuns_dropWhile]
            simp [maximalAlnumRuns, hb]
          rw [h2, h3]
          have hlen2 : (bs.dropWhile (fun x => !isLowerAlnum x)).length ≤ n := by
            have l1 : (bs.dropWhile (fun x => !isLowerAlnum x)).length ≤ bs.length :=
              List.Sublist.length_le (List.dropWhile_sublist _)
            have l2 : (cs.dropWhile isLowerAlnum).length ≤ cs.length :=
              List.Sublist.length_le (List.dropWhile_sublist _)
            rw [hdw] at l2
            simp only [List.length_cons] at l2
            omega
          cases hdw2 : bs.dropWhile (fun x => !isLowerAlnum x) with
          | nil =>
            rw [show collapseAux false ([] : List Char) = [] from rfl]
            rw [show (c :: cs.takeWhile isLowerAlnum) ++ '_' :: ([] : List Char)
                = c :: (cs.takeWhile isLowerAlnum ++ ['_']) from rfl]
            rw [trim_cons_of_good hc]
            rw [show c :: (cs.takeWhile isLowerAlnum ++ ['_'])
                = (c :: cs.takeWhile isLowerAlnum) ++ ['_'] from rfl]
            rw [List.rdropWhile_concat_pos _ _ _ (by rfl)]
            rw [rdropWhile_eq_self_of_ne (fun x hx => isLowerAlnum_ne_underscore (hgood x hx))]
            rw [maximalAlnumRuns_nil]
            rfl
          | cons g gs =>
            have hg : isLowerAlnum g = true := by
              have := dropWhile_head_false hdw2
              simpa using this
            have hlen3 : (g :: gs).length ≤ n := hdw2 ▸ hlen2
            have hIH := ih (g :: gs) hlen3
            have hX : collapseAux false (g :: gs) = g :: collapseAux false gs := by
              simp [collapseAux, hg]
            have hXr : (collapseAux false (g :: gs)).rdropWhile (fun x => x == '_') ≠ [] := by
              intro he
              rw [List.rdropWhile_eq_nil_iff] at he
              have hgm : g ∈ collapseAux false (g :: gs) := by
                rw [hX]; exact List.mem_cons_self _ _
              have := he g hgm
              rw [beq_iff_eq] at this
              exact isLowerAlnum_ne_underscore hg this
            have hchain : trimUnderscores
                  ((c :: cs.takeWhile isLowerAlnum) ++ '_' :: collapseAux false (g :: gs))
                = (c :: cs.takeWhile isLowerAlnum) ++ '_'
                    :: trimUnderscores (collapseAux false (g :: gs)) := by
              rw [show (c :: cs.takeWhile isLowerAlnum) ++ '_' :: collapseAux false (g :: gs)
                  = c :: (cs.takeWhile isLowerAlnum ++ '_' :: collapseAux false (g :: gs)) from rfl]
              rw [trim_cons_of_good hc]
              rw [show c :: (cs.takeWhile isLowerAlnum ++ '_' :: collapseAux false (g :: gs))
                  = ((c :: cs.takeWhile isLowerAlnum) ++ ['_']) ++ collapseAux false (g :: gs) from by
                simp]
              rw [rdropWhile_append_of_ne hXr]
              rw [show trimUnderscores (collapseAux false (g :: gs))
                  = (collapseAux false (g :: gs)).rdropWhile (fun x => x == '_') from by
                rw [hX]; exact trim_cons_of_good hg]
              simp
            rw [hchain, hIH]
            cases hmg : maximalAlnumRuns (g :: gs) with
            | nil =>
              exfalso
              rw [show maximalAlnumRuns (g :: gs) = (g :: gs.takeWhile isLowerAlnum)
                  :: maximalAlnumRuns (gs.dropWhile isLowerAlnum) from by
                simp [maximalAlnumRuns, hg]] at hmg
              exact List.cons_ne_nil _ _ hmg
            | cons m0 ms => rfl
      · have hc' : isLowerAlnum c = false := Bool.eq_false_iff.mpr hc
        have h1 : collapseAux false (c :: cs)
            = '_' :: collapseAux false (cs.dropWhile (fun x => !isLowerAlnum x)) := by
          rw [show collapseAux false (c :: cs) = '_' :: collapseAux true cs from by
            simp [collapseAux, hc'], collapseAux_true_eq]
        rw [h1, trim_underscore_cons]
        have hlen2 : (cs.dropWhile (fun x => !isLowerAlnum x)).length ≤ n :=
          le_trans (List.Sublist.length_le (List.dropWhile_sublist _)) hcs
        rw [ih _ hlen2, maximalAlnumRuns_dropWhile]
        rw [show maximalAlnumRuns (c :: cs) = maximalAlnumRuns cs from by
          simp [maximalAlnumRuns, hc']]

theorem trim_collapse (l : List Char) :
    trimUnderscores (collapseAux false l) = joinUnderscore (maximalAlnumRuns l) :=
  trim_collapse_fuel l.length l (Nat.le_refl _)

theorem to_snake_case_eq_spec (s : String) : to_snake_case s = normalize_spec s := by
  show String.mk (trimUnderscores (collapseAux false (stripApostrophes (s.toList.map lowerChar))))
      = String.mk (joinUnderscore (maximalAlnumRuns (stripApostrophes (s.toList.map lowerChar))))
  rw [trim_collapse]

theorem takeWhile_good_append {p : Char → Bool} {xs : List Char} {y : Char} {ys : List Char}
    (hxs : ∀ x ∈ xs, p x = true) (hy : p y = false) :
    (xs ++ y :: ys).takeWhile p = xs := by
  induction xs with
  | nil => simp [List.takeWhile_cons, hy]
  | cons a as ih =>
    have ha := hxs a (List.mem_cons_self a as)
    simp [List.takeWhile_cons, ha, ih (fun x hx => hxs x (List.mem_cons_of_mem _ hx))]

theorem dropWhile_good_append {p : Char → Bool} {xs : List Char} {y : Char} {ys : List Char}
    (hxs : ∀ x ∈ xs, p x = true) (hy : p y = false) :
    (xs ++ y :: ys).dropWhile p = y :: ys := by
  induction xs with
  | nil => simp [List.dropWhile_cons, hy]
  | cons a as ih =>
    have ha := hxs a (List.mem_cons_self a as)
    simp [List.dropWhile_cons, ha, ih (fun x hx => hxs x (List.mem_cons_of_mem _ hx))]

theorem maximalAlnumRuns_good_fuel :
    ∀ (n : Nat) (l : List Char), l.length ≤ n →
      ∀ b ∈ maximalAlnumRuns l, b ≠ [] ∧ ∀ c ∈ b, isLowerAlnum c = true := by
  intro n
  induction n with
  | zero =>
    intro l hl b hb
    have hnil : l = [] := List.length_eq_zero.mp (Nat.le_zero.mp hl)
    subst hnil; rw [maximalAlnumRuns_nil] at hb; simp at hb
  | succ n ih =>
    intro l hl b hb
    match l with
    | [] => rw [maximalAlnumRuns_nil] at hb; simp at hb
    | c :: cs =>
      have hcs : cs.length ≤ n := Nat.le_of_succ_le_succ (by simpa using hl)
      by_cases hc : isLowerAlnum c = true
      · rw [show maximalAlnumRuns (c :: cs) = (c :: cs.takeWhile isLowerAlnum)
            :: maximalAlnumRuns (cs.dropWhile isLowerAlnum) from by
          simp [maximalAlnumRuns, hc]] at hb
        rcases List.mem_cons.mp hb with rfl | hb
        · refine ⟨List.cons_ne_nil _ _, ?_⟩
          intro x hx
          rcases List.mem_cons.mp hx with rfl | hx
          · exact hc
          · exact List.mem_takeWhile_imp hx
        · exact ih (cs.dropWhile isLowerAlnum)
            (le_trans (List.Sublist.length_le (List.dropWhile_sublist _)) hcs) b hb
      · rw [show maximalAlnumRuns (c :: cs) = maximalAlnumRuns cs from by
          simp [maximalAlnumRuns, Bool.eq_false_iff.mpr hc]] at hb
        exact ih cs hcs b hb

theorem maximalAlnumRuns_good {l : List Char} {b : List Char}
    (hb : b ∈ maximalAlnumRuns l) : b ≠ [] ∧ ∀ c ∈ b, isLowerAlnum c = true :=
  maximalAlnumRuns_good_fuel l.length l (Nat.le_refl _) b hb

theorem mem_joinUnderscore {B : List (List Char)} {c : Char} (hc : c ∈ joinUnderscore B) :
    c = '_' ∨ ∃ b ∈ B, c ∈ b := by
  induction B with
  | nil => simp [joinUnderscore] at hc
  | cons b bs ih =>
    cases bs with
    | nil =>
      rw [show joinUnderscore [b] = b from rfl] at hc
      exact Or.inr ⟨b, List.mem_cons_self _ _, hc⟩
    | cons b' bs' =>
      rw [show joinUnderscore (b :: b' :: bs') = b ++ '_' :: joinUnderscore (b' :: bs') from rfl]
        at hc
      rcases List.mem_append.mp hc with hc | hc
      · exact Or.inr ⟨b, List.mem_cons_self _ _, hc⟩
      · rcases List.mem_cons.mp hc with rfl | hc
        · exact Or.inl rfl
        · rcases ih hc with h | ⟨bb, hbb, hcb⟩
          · exact Or.inl h
          · exact Or.inr ⟨bb, List.mem_cons_of_mem _ hbb, hcb⟩

theorem joinUnderscore_chars {B : List (List Char)}
    (hB : ∀ b ∈ B, b ≠ [] ∧ ∀ c ∈ b, isLowerAlnum c = true) :
    ∀ c ∈ joinUnderscore B, isLowerAlnum c = true ∨ c = '_' := by
  intro c hc
  rcases mem_joinUnderscore hc with rfl | ⟨b, hb, hcb⟩
  · exact Or.inr rfl
  · exact Or.inl ((hB b hb).2 c hcb)

theorem maximalAlnumRuns_joinUnderscore :
    ∀ B : List (List Char), (∀ b ∈ B, b ≠ [] ∧ ∀ c ∈ b, isLowerAlnum c = true) →
      maximalAlnumRuns (joinUnderscore B) = B := by
  intro B
  induction B with
  | nil => intro _; exact maximalAlnumRuns_nil
  | cons b bs ih =>
    intro hB
    obtain ⟨hbne, hbgood⟩ := hB b (List.mem_cons_self _ _)
    obtain ⟨c, cb, rfl⟩ := List.exists_cons_of_ne_nil hbne
    have hcg : isLowerAlnum c = true := hbgood c (List.mem_cons_self _ _)
    have hgoodcb : ∀ x ∈ cb, isLowerAlnum x = true :=
      fun x hx => hbgood x (List.mem_cons_of_mem _ hx)
    cases bs with
    | nil =>
      rw [show joinUnderscore [c :: cb] = c :: cb from rfl]
      rw [show maximalAlnumRuns (c :: cb) = (c :: cb.takeWhile isLowerAlnum)
          :: maximalAlnumRuns (cb.dropWhile isLowerAlnum) from by
        simp [maximalAlnumRuns, hcg]]
      rw [List.takeWhile_eq_self_iff.mpr hgoodcb, List.dropWhile_eq_nil_iff.mpr hgoodcb,
        maximalAlnumRuns_nil]
    | cons b' bs' =>
      rw [show joinUnderscore ((c :: cb) :: b' :: bs')
          = c :: (cb ++ '_' :: joinUnderscore (b' :: bs')) from rfl]
      rw [show maximalAlnumRuns (c :: (cb ++ '_' :: joinUnderscore (b' :: bs')))
          = (c :: (cb ++ '_' :: joinUnderscore (b' :: bs')).takeWhile isLowerAlnum)
            :: maximalAlnumRuns ((cb ++ '_' :: joinUnderscore (b' :: bs')).dropWhile isLowerAlnum)
          from by
        simp [maximalAlnumRuns, hcg]]
      rw [takeWhile_good_append hgoodcb (by decide), dropWhile_good_append hgoodcb (by decide)]
      rw [show maximalAlnumRuns ('_' :: joinUnderscore (b' :: bs'))
          = maximalAlnumRuns (joinUnderscore (b' :: bs')) from by
        simp [maximalAlnumRuns, show isLowerAlnum '_' = false from by decide]]
      rw [ih (fun x hx => hB x (List.mem_cons_of_mem _ hx))]

theorem map_eq_self {l : List Char} {f : Char → Char} (h : ∀ c ∈ l, f c = c) :
    l.map f = l := by
  induction l with
  | nil => rfl
  | cons a as ih =>
    rw [List.map_cons, h a (List.mem_cons_self _ _),
      ih (fun c hc => h c (List.mem_cons_of_mem _ hc))]

theorem strIn_iff {needle hay : List Char} : strIn needle hay = true ↔ needle <:+: hay := by
  induction hay with
  | nil =>
    rw [show strIn needle [] = needle.isEmpty from rfl]
    rw [List.isEmpty_iff, List.infix_nil]
  | cons c t ih =>
    rw [show strIn needle (c :: t) = (needle.isPrefixOf (c :: t) || strIn needle t) from rfl]
    rw [Bool.or_eq_true, List.infix_cons_iff, ih, List.isPrefixOf_iff_prefix]

theorem is_hospital_dataset_def (d : Dataset) :
    is_hospital_dataset d
      = strIn "hospital".toList ((d.theme.getD "").toList.map lowerChar) := rfl

theorem lexLt_irrefl (l : List Char) : lexLt l l = false := by
  induction l with
  | nil => rfl
  | cons a as ih => simp [lexLt, ih]

theorem lexLt_iff {a b : List Char} :
    lexLt a b = true ↔ List.Lex (fun x y => x < y) a b := by
  induction a generalizing b with
  | nil =>
    cases b with
    | nil =>
      refine iff_of_false (by simp [lexLt]) ?_
      intro h; nomatch h
    | cons y ys => exact iff_of_true rfl List.Lex.nil
  | cons x xs ih =>
    cases b with
    | nil =>
      refine iff_of_false (by simp [lexLt]) ?_
      intro h; nomatch h
    | cons y ys =>
      rw [show lexLt (x :: xs) (y :: ys)
          = (if x < y then true else if y < x then false else lexLt xs ys) from rfl]
      by_cases hxy : x < y
      · rw [if_pos hxy]
        exact iff_of_true rfl (List.Lex.rel hxy)
      · by_cases hyx : y < x
        · rw [if_neg hxy, if_pos hyx]
          refine iff_of_false (by simp) ?_
          intro hlex
          cases hlex with
          | rel h => exact hxy h
          | cons h => exact lt_irrefl _ hyx
        · have hxyeq : x = y := le_antisymm (not_lt.mp hyx) (not_lt.mp hxy)
          subst hxyeq
          rw [if_neg hxy, if_neg hxy]
          constructor
          · intro h; exact List.Lex.cons (ih.mp h)
          · intro h
            cases h with
            | rel h' => exact absurd h' hxy
            | cons h' => exact ih.mpr h'

theorem needs_update_eq {d : Dataset} {st : Metadata}
    (h : ∀ s, mLookup st d.identifier = some s → s.isSome ∧ d.modified.isSome) :
    needs_update d st = .ok (updPredB st d) := by
  cases hl : mLookup st d.identifier with
  | none => simp [needs_update, updPredB, hl]
  | some stored =>
    obtain ⟨hs, hm⟩ := h stored hl
    obtain ⟨sv, rfl⟩ := Option.isSome_iff_exists.mp hs
    obtain ⟨lm, hmod⟩ := Option.isSome_iff_exists.mp hm
    simp [needs_update, updPredB, hl, hmod, pyGtOpt]

theorem selectDatasets_eq_filter :
    ∀ (catalog : List Dataset) (st : Metadata),
      (∀ d ∈ catalog, ∀ s, mLookup st d.identifier = some s → s.isSome ∧ d.modified.isSome) →
      selectDatasets catalog st = .ok (catalog.filter (selPredB st)) := by
  intro catalog st
  induction catalog with
  | nil => intro _; rfl
  | cons d ds ih =>
    intro h
    have hd := fun s hs => h d (List.mem_cons_self _ _) s hs
    have hds := fun d' hd' s hs => h d' (List.mem_cons_of_mem _ hd') s hs
    by_cases hh : is_hospital_dataset d = true
    · by_cases hu : updPredB st d = true
      · simp [selectDatasets, hh, needs_update_eq hd, ih hds, List.filter_cons, selPredB, hu]
      · simp [selectDatasets, hh, needs_update_eq hd, ih hds, List.filter_cons, selPredB,
          Bool.eq_false_iff.mpr hu]
    · have hh' : is_hospital_dataset d = false := Bool.eq_false_iff.mpr hh
      simp [selectDatasets, hh', ih hds, List.filter_cons, selPredB]

/-- Claim C4: the selection returns exactly the descriptors whose theme
contains the word hospital case-insensitively AND whose identifier is absent
from the state or whose modified timestamp is lexicographically strictly
greater than the stored one; the result is a sublist of the input (relative
order preserved); a descriptor whose modified timestamp equals the stored
value is not selected.  The hypothesis states that the descriptors and the
state are well formed enough for the comparison not to raise (claim C10
covers the raising case). -/
theorem c4_selection_exact (catalog : List Dataset) (st : Metadata)
    (h : ∀ d ∈ catalog, ∀ s, mLookup st d.identifier = some s → s.isSome ∧ d.modified.isSome) :
    selectDatasets catalog st = .ok (catalog.filter (selPredB st)) ∧
    (catalog.filter (selPredB st)).Sublist catalog ∧
    (∀ d, selPredB st d = true ↔
      ("hospital".toList <:+: (d.theme.getD "").toList.map lowerChar ∧
       (mLookup st d.identifier = none ∨
        ∃ s lm, mLookup st d.identifier = some (some s) ∧ d.modified = some lm ∧
          List.Lex (fun x y => x < y) s.toList lm.toList))) ∧
    (∀ d s, mLookup st d.identifier = some (some s) → d.modified = some s →
      selPredB st d = false) := by
  refine ⟨selectDatasets_eq_filter catalog st h, List.filter_sublist _, ?_, ?_⟩
  · intro d
    rw [selPredB, Bool.and_eq_true]
    constructor
    · rintro ⟨h1, h2⟩
      rw [is_hospital_dataset_def] at h1
      refine ⟨strIn_iff.mp h1, ?_⟩
      cases hl : mLookup st d.identifier with
      | none => exact Or.inl rfl
      | some stored =>
        cases hmod : d.modified with
        | none =>
          exfalso
          cases stored <;> simp [updPredB, hl, hmod] at h2
        | some lm =>
          cases stored with
          | none =>
            exfalso
            simp [updPredB, hl, hmod] at h2
          | some sv =>
            simp only [updPredB, hl, hmod] at h2
            exact Or.inr ⟨sv, lm, rfl, rfl, lexLt_iff.mp h2⟩
    · rintro ⟨h1, h2⟩
      refine ⟨?_, ?_⟩
      · rw [is_hospital_dataset_def]
        exact strIn_iff.mpr h1
      · rcases h2 with h2 | ⟨sv, lm, hl, hmod, hlex⟩
        · simp [updPredB, h2]
        · simp only [updPredB, hl, hmod]
          exact lexLt_iff.mpr hlex
  · intro d s hl hmod
    have hu : updPredB st d = false := by
      simp only [updPredB, hl, hmod]
      exact lexLt_irrefl _
    rw [selPredB, hu, Bool.and_false]

/-- Witness for claim C4 at a concrete catalog: one descriptor already
recorded with an older timestamp and one unseen descriptor. -/
theorem c4_witness :
    selectDatasets [dOk, dFail] stC10 = .ok ([dOk, dFail].filter (selPredB stC10)) :=
  (c4_selection_exact [dOk, dFail] stC10 (by
    intro d hd s hs
    rcases List.mem_cons.mp hd with rfl | hd
    · rw [show mLookup stC10 dOk.identifier = some (some "2024-01-01") from rfl] at hs
      obtain rfl := Option.some.inj hs
      exact ⟨rfl, rfl⟩
    · rcases List.mem_cons.mp hd with rfl | hd
      · rw [show mLookup stC10 dFail.identifier = none from rfl] at hs
        exact Option.noConfusion hs
      · exact absurd hd (List.not_mem_nil d))).1

/-- Claim C5: the state mapping entry of a descriptor is assigned only after
the output file was successfully written, and when process_dataset raises at
any point the metadata dictionary is left unchanged. -/
theorem c5_state_update_only_after_write (env : Env) (d : Dataset) (m : Metadata) :
    (∀ e, (process_dataset env d m).1 = .error e → (process_dataset env d m).2.1 = m) ∧
    ((process_dataset env d m).2.1 ≠ m →
      ∃ p df, (process_dataset env d m).1 = .ok (some p) ∧
        (process_dataset env d m).2.2 = [(p, df)]) := by
  cases hdist : d.distribution.getD [⟨none⟩] with
  | nil =>
    constructor
    · intro e _; simp [process_dataset, hdist]
    · intro hne; exfalso; apply hne; simp [process_dataset, hdist]
  | cons dist rest =>
    cases hurl : dist.downloadURL with
    | none =>
      constructor
      · intro e _; simp [process_dataset, hdist, hurl]
      · intro hne; exfalso; apply hne; simp [process_dataset, hdist, hurl]
    | some u =>
      by_cases hu : u = ""
      · subst hu
        constructor
        · intro e _; simp [process_dataset, hdist, hurl]
        · intro hne; exfalso; apply hne; simp [process_dataset, hdist, hurl]
      · cases hread : env.read_csv u with
        | error e' =>
          constructor
          · intro e _; simp [process_dataset, hdist, hurl, hu, hread]
          · intro hne; exfalso; apply hne; simp [process_dataset, hdist, hurl, hu, hread]
        | ok df =>
          cases hw : env.to_csv ("output/" ++ pyShowOpt d.identifier ++ ".csv")
              ⟨df.columns.map to_snake_case, df.rows⟩ with
          | some e' =>
            constructor
            · intro e _; simp [process_dataset, hdist, hurl, hu, hread, hw]
            · intro hne; exfalso; apply hne
              simp [process_dataset, hdist, hurl, hu, hread, hw]
          | none =>
            constructor
            · intro e he
              exfalso
              simp [process_dataset, hdist, hurl, hu, hread, hw] at he
            · intro _
              refine ⟨"output/" ++ pyShowOpt d.identifier ++ ".csv",
                ⟨df.columns.map to_snake_case, df.rows⟩, ?_, ?_⟩ <;>
                simp [process_dataset, hdist, hurl, hu, hread, hw]

/-- Witness for claim C5: in an environment whose download raises, the
metadata dictionary after the call is the unchanged input dictionary. -/
theorem c5_witness : (process_dataset envFail dOk []).2.1 = ([] : Metadata) :=
  (c5_state_update_only_after_write envFail dOk []).1 .readError rfl

/-- Claim C2 counterexample: on a descriptor whose distribution sequence is
present but empty, process_dataset raises IndexError instead of returning
the Skipped outcome. -/
theorem c2_counterexample :
    (process_dataset envOk dEmptyDist []).1 = .error .indexError := rfl

/-- Claim C2 amended: a descriptor whose distribution key is absent, or whose
first distribution has no download locator (or an empty one), yields the
Skipped result with no error, no file written and no state change; but a
descriptor whose distribution key holds an empty sequence raises IndexError. -/
theorem c2_amended_skip (env : Env) (d : Dataset) (m : Metadata) :
    ((d.distribution = none ∨
        ∃ dist rest, d.distribution = some (dist :: rest) ∧
          (dist.downloadURL = none ∨ dist.downloadURL = some "")) →
      process_dataset env d m = (.ok none, m, [])) ∧
    (d.distribution = some [] → (process_dataset env d m).1 = .error .indexError) := by
  constructor
  · rintro (hnone | ⟨dist, rest, hd, hurl⟩)
    · simp [process_dataset, hnone]
    · rcases hurl with hurl | hurl <;> simp [process_dataset, hd, hurl]
  · intro hd
    simp [process_dataset, hd]

/-- Witness for claim C2 amended: a descriptor without distribution key is
skipped with no side effect. -/
theorem c2_amended_witness : process_dataset envOk dNoDist [] = (.ok none, [], []) :=
  (c2_amended_skip envOk dNoDist []).1 (Or.inl rfl)

/-- Claim C3 counterexample: a successful process_dataset call does mutate
the shared metadata dictionary itself. -/
theorem c3_counterexample : (process_dataset envOk dOk []).2.1 ≠ [] := by decide

/-- Claim C3 amended: process_dataset itself updates the shared state
mapping; on success it binds the descriptor identifier to its modified
timestamp directly, before returning; there is no separate orchestrator
merge step. -/
theorem c3_amended_insert (env : Env) (d : Dataset) (m : Metadata) (p : String)
    (h : (process_dataset env d m).1 = .ok (some p)) :
    (process_dataset env d m).2.1 = mInsert m d.identifier d.modified := by
  cases hdist : d.distribution.getD [⟨none⟩] with
  | nil => simp [process_dataset, hdist] at h
  | cons dist rest =>
    cases hurl : dist.downloadURL with
    | none => simp [process_dataset, hdist, hurl] at h
    | some u =>
      by_cases hu : u = ""
      · subst hu; simp [process_dataset, hdist, hurl] at h
      · cases hread : env.read_csv u with
        | error e' => simp [process_dataset, hdist, hurl, hu, hread] at h
        | ok df =>
          cases hw : env.to_csv ("output/" ++ pyShowOpt d.identifier ++ ".csv")
              ⟨df.columns.map to_snake_case, df.rows⟩ with
          | some e' => simp [process_dataset, hdist, hurl, hu, hread, hw] at h
          | none => simp [process_dataset, hdist, hurl, hu, hread, hw]

/-- Witness for claim C3 amended: the concrete successful call stores the
identifier and timestamp of the descriptor into the metadata dictionary. -/
theorem c3_amended_witness :
    (process_dataset envOk dOk []).2.1 = mInsert [] dOk.identifier dOk.modified :=
  c3_amended_insert envOk dOk [] "output/D1.csv" rfl

/-- Claim C9: when the selection is empty, main reports the nothing-to-do
outcome and returns successfully: no exception, no task dispatched, no file
written, and the state file is not rewritten. -/
theorem c9_empty_selection (env : Env) (catalog : List Dataset) (st : Metadata)
    (h : selectDatasets catalog st = .ok []) :
    main env catalog st = ⟨none, st, none, [], true⟩ := by
  unfold main
  rw [h]

/-- Witness for claim C9 at the empty catalog. -/
theorem c9_witness :
    main envOk [] stC10 = ⟨none, stC10, none, [], true⟩ :=
  c9_empty_selection envOk [] stC10 rfl

/-- Claim C10: on a descriptor whose identifier is recorded in the state but
whose modified field is absent, needs_update raises TypeError (Python 3
refuses an order comparison between None and a string), and the error is
reachable through main. -/
theorem c10_needs_update_raises (d : Dataset) (st : Metadata)
    (h1 : (mLookup st d.identifier).isSome) (h2 : d.modified = none) :
    needs_update d st = .error .typeError ∧
    (∀ env, is_hospital_dataset d = true → (main env [d] st).raised = some .typeError) := by
  obtain ⟨stored, hl⟩ := Option.isSome_iff_exists.mp h1
  have hn : needs_update d st = .error .typeError := by
    cases stored <;> simp [needs_update, hl, h2, pyGtOpt]
  refine ⟨hn, ?_⟩
  intro env hh
  have hsel : selectDatasets [d] st = .error .typeError := by
    simp [selectDatasets, hh, hn]
  unfold main
  rw [hsel]

/-- Witness for claim C10 at a concrete descriptor and state. -/
theorem c10_witness :
    needs_update dNoModified stC10 = .error .typeError ∧
    (main envOk [dNoModified] stC10).raised = some .typeError := by
  have h := c10_needs_update_raises dNoModified stC10 (by decide) rfl
  exact ⟨h.1, h.2 envOk (by decide)⟩

/-- Claim C1 counterexample: with three selected datasets of which the second
download raises, main re-raises the error, the state file is not rewritten,
even though the two sibling tasks wrote their files. -/
theorem c1_counterexample :
    (main envC1 cat3 []).raised = some .readError ∧
    (main envC1 cat3 []).persisted = none ∧
    (main envC1 cat3 []).files.length = 2 := by decide

/-- Claim C1 amended: a per-dataset error is not caught at the task boundary;
all submitted tasks still run to completion (their file writes and in-memory
merges included), but the first observed failure re-raises inside main, the
run unwinds, and the state file is not rewritten, so no timestamp, not even
of the successful siblings, is persisted. -/
theorem c1_amended_no_catch (env : Env) (catalog : List Dataset) (st : Metadata)
    (sel : List Dataset) (m1 : Metadata) (fs : List (String × Table))
    (e : PyErr) (es : List PyErr)
    (hsel : selectDatasets catalog st = .ok sel)
    (hne : sel ≠ [])
    (hrun : runTasks env sel st = (m1, fs, e :: es)) :
    (main env catalog st).raised = some e ∧
    (main env catalog st).persisted = none ∧
    (main env catalog st).inMemory = m1 ∧
    (main env catalog st).files = fs := by
  obtain ⟨d, ds, rfl⟩ := List.exists_cons_of_ne_nil hne
  simp [main, hsel, hrun]

/-- Witness for claim C1 amended at the concrete three-dataset run. -/
theorem c1_amended_witness :
    (main envC1 cat3 []).persisted = none ∧
    (main envC1 cat3 []).raised = some .readError := by
  have h := c1_amended_no_catch envC1 cat3 [] cat3 m1C1 filesC1 .readError []
    rfl (by decide) rfl
  exact ⟨h.2.1, h.1⟩

/-- Claim C7: the column normalizer implements the algorithm of spec section
4.2: lowercase, delete curly and straight apostrophes without inserting a
separator, replace every maximal run of characters outside the target
alphabet by a single underscore, trim leading and trailing underscores
(stated as equality with the runs-joined-by-underscores form, plus the two
concrete examples of the spec, the first one on the input string built from
the word Patients, a straight apostrophe U+0027, and the rest of the
phrase). -/
theorem c7_normalizer_algorithm :
    (∀ s, to_snake_case s = normalize_spec s) ∧
    to_snake_case (String.mk ("Patients".toList ++ squote :: " rating of the facility".toList))
      = "patients_rating_of_the_facility" ∧
    to_snake_case "  A--B__C  " = "a_b_c" :=
  ⟨to_snake_case_eq_spec, by decide, by decide⟩

/-- Claim C8: the column normalizer is idempotent on every string. -/
theorem c8_normalizer_idempotent (s : String) :
    to_snake_case (to_snake_case s) = to_snake_case s := by
  have key : ∀ B : List (List Char),
      (∀ b ∈ B, b ≠ [] ∧ ∀ c ∈ b, isLowerAlnum c = true) →
      to_snake_case (String.mk (joinUnderscore B)) = String.mk (joinUnderscore B) := by
    intro B hB
    have hchars := joinUnderscore_chars hB
    show String.mk (trimUnderscores (collapseAux false (stripApostrophes
        ((String.mk (joinUnderscore B)).toList.map lowerChar)))) = _
    rw [show (String.mk (joinUnderscore B)).toList = joinUnderscore B from rfl]
    rw [map_eq_self (fun c hc => lowerChar_eq_self (hchars c hc))]
    rw [stripApostrophes_eq_self hchars]
    rw [trim_collapse]
    rw [maximalAlnumRuns_joinUnderscore B hB]
  have h1 : to_snake_case s
      = String.mk (joinUnderscore (maximalAlnumRuns (stripApostrophes
          (s.toList.map lowerChar)))) := by
    show String.mk (trimUnderscores (collapseAux false (stripApostrophes
        (s.toList.map lowerChar)))) = _
    rw [trim_collapse]
  rw [h1]
  exact key _ (fun b hb => maximalAlnumRuns_good hb)

theorem mLookup_mInsert_self (m : Metadata) (k v : Option String) :
    mLookup (mInsert m k v) k = some v := by
  induction m with
  | nil => simp [mInsert, mLookup]
  | cons p rest ih =>
    obtain ⟨k0, v0⟩ := p
    by_cases hk : k0 = k
    · simp [mInsert, hk, mLookup]
    · simp [mInsert, hk, mLookup, ih]

theorem mLookup_mInsert_ne (m : Metadata) (k v k' : Option String) (h : k ≠ k') :
    mLookup (mInsert m k v) k' = mLookup m k' := by
  induction m with
  | nil => simp [mInsert, mLookup, h]
  | cons p rest ih =>
    obtain ⟨k0, v0⟩ := p
    by_cases hk : k0 = k
    · subst hk; simp [mInsert, mLookup, h]
    · simp [mInsert, hk, mLookup, ih]

theorem mLookup_mem_values :
    ∀ (st : Metadata) (k s : Option String), mLookup st k = some s → (k, s) ∈ st := by
  intro st
  induction st with
  | nil => intro k s h; simp [mLookup] at h
  | cons p rest ih =>
    intro k s h
    obtain ⟨k0, v0⟩ := p
    by_cases hk : k0 = k
    · subst hk
      simp [mLookup] at h
      subst h
      exact List.mem_cons_self _ _
    · simp [mLookup, hk] at h
      exact List.mem_cons_of_mem _ (ih k s h)

theorem process_dataset_hasURL (env : Env) (d : Dataset) (m : Metadata)
    (h : hasURL d = true) :
    (∃ e, process_dataset env d m = (.error e, m, [])) ∨
    (∃ p df, process_dataset env d m
        = (.ok (some p), mInsert m d.identifier d.modified, [(p, df)])) := by
  cases hdist : d.distribution.getD [⟨none⟩] with
  | nil => simp [hasURL, hdist] at h
  | cons dist rest =>
    cases hurl : dist.downloadURL with
    | none => simp [hasURL, hdist, hurl] at h
    | some u =>
      have hu : ¬ (u = "") := by
        simp [hasURL, hdist, hurl] at h
        simpa using h
      cases hread : env.read_csv u with
      | error e' =>
        exact Or.inl ⟨e', by simp [process_dataset, hdist, hurl, hu, hread]⟩
      | ok df =>
        cases hw : env.to_csv ("output/" ++ pyShowOpt d.identifier ++ ".csv")
            ⟨df.columns.map to_snake_case, df.rows⟩ with
        | some e' =>
          exact Or.inl ⟨e', by simp [process_dataset, hdist, hurl, hu, hread, hw]⟩
        | none =>
          exact Or.inr ⟨"output/" ++ pyShowOpt d.identifier ++ ".csv",
            ⟨df.columns.map to_snake_case, df.rows⟩,
            by simp [process_dataset, hdist, hurl, hu, hread, hw]⟩

theorem runTasks_noerr_fold (env : Env) :
    ∀ (sel : List Dataset) (st : Metadata),
      (∀ d ∈ sel, hasURL d = true) →
      (runTasks env sel st).2.2 = [] →
      (runTasks env sel st).1 = foldIns sel st := by
  intro sel
  induction sel with
  | nil => intro st _ _; rfl
  | cons d ds ih =>
    intro st hurl herr
    rcases process_dataset_hasURL env d st (hurl d (List.mem_cons_self _ _)) with
      ⟨e, hpe⟩ | ⟨p, df, hps⟩
    · exfalso
      rcases hrt : runTasks env ds st with ⟨m2, fs2, es2⟩
      rw [show runTasks env (d :: ds) st = (m2, [] ++ fs2, e :: es2) from by
        simp [runTasks, hpe, hrt]] at herr
      exact List.cons_ne_nil _ _ herr
    · rcases hrt : runTasks env ds (mInsert st d.identifier d.modified) with ⟨m2, fs2, es2⟩
      have hstep : runTasks env (d :: ds) st = (m2, [(p, df)] ++ fs2, es2) := by
        simp [runTasks, hps, hrt]
      rw [hstep] at herr
      have herr2 : (runTasks env ds (mInsert st d.identifier d.modified)).2.2 = [] := by
        rw [hrt]; exact herr
      have ihh := ih (mInsert st d.identifier d.modified)
        (fun d' hd' => hurl d' (List.mem_cons_of_mem _ hd')) herr2
      rw [hrt] at ihh
      rw [hstep]
      exact ihh

theorem mLookup_foldIns_not_mem :
    ∀ (sel : List Dataset) (st : Metadata) (k : Option String),
      (∀ d ∈ sel, d.identifier ≠ k) →
      mLookup (foldIns sel st) k = mLookup st k := by
  intro sel
  induction sel with
  | nil => intro st k _; rfl
  | cons d ds ih =>
    intro st k h
    rw [show foldIns (d :: ds) st = foldIns ds (mInsert st d.identifier d.modified) from rfl]
    rw [ih _ k (fun d' hd' => h d' (List.mem_cons_of_mem _ hd'))]
    exact mLookup_mInsert_ne st d.identifier d.modified k (h d (List.mem_cons_self _ _))

theorem mLookup_foldIns_mem :
    ∀ (sel : List Dataset) (st : Metadata) (d : Dataset),
      d ∈ sel → (sel.map Dataset.identifier).Nodup →
      mLookup (foldIns sel st) d.identifier = some d.modified := by
  intro sel
  induction sel with
  | nil => intro st d hd _; simp at hd
  | cons d0 ds ih =>
    intro st d hd hnd
    rw [show foldIns (d0 :: ds) st = foldIns ds (mInsert st d0.identifier d0.modified) from rfl]
    have hnd' : (∀ x ∈ ds, ¬ x.identifier = d0.identifier)
        ∧ (ds.map Dataset.identifier).Nodup := by
      simpa using hnd
    rcases List.mem_cons.mp hd with rfl | hd
    · have hnotin : ∀ d' ∈ ds, d'.identifier ≠ d.identifier := by
        intro d' hd' he
        exact hnd'.1 d' hd' he
      rw [mLookup_foldIns_not_mem ds _ d.identifier hnotin]
      exact mLookup_mInsert_self st d.identifier d.modified
    · exact ih _ d hd hnd'.2

/-- Claim C6 counterexample: a hospital-themed descriptor with no
distribution key is selected, skipped (no state entry recorded), the run
completes and persists the empty state, and the unchanged catalog selects
the same descriptor again on the second run. -/
theorem c6_counterexample :
    (main envOk [dNoDist] []).persisted = some [] ∧
    selectDatasets [dNoDist] [] = .ok [dNoDist] :=
  ⟨by decide, rfl⟩

/-- Claim C6 amended: when the first run persists its state (no task
raised), every selected descriptor carried a usable download locator (none
was skipped), the catalog identifiers are pairwise distinct, every
descriptor carries a modified timestamp and every stored state value is a
string, then the second run against the unchanged catalog selects zero
datasets. -/
theorem c6_amended_idempotent (env : Env) (catalog : List Dataset) (st : Metadata)
    (sel : List Dataset)
    (hsel : selectDatasets catalog st = .ok sel)
    (hurl : ∀ d ∈ sel, hasURL d = true)
    (hnoerr : (runTasks env sel st).2.2 = [])
    (hnd : (catalog.map Dataset.identifier).Nodup)
    (hmod : ∀ d ∈ catalog, (d.modified).isSome)
    (hst : ∀ p ∈ st, (p.2).isSome) :
    selectDatasets catalog ((main env catalog st).persisted.getD st) = .ok [] := by
  have hgood_st : ∀ d ∈ catalog, ∀ s,
      mLookup st d.identifier = some s → s.isSome ∧ d.modified.isSome := by
    intro d hd s hs
    exact ⟨hst (d.identifier, s) (mLookup_mem_values st _ s hs), hmod d hd⟩
  have hfil := selectDatasets_eq_filter catalog st hgood_st
  have hseleq : sel = catalog.filter (selPredB st) := by
    rw [hsel] at hfil
    exact Except.ok.inj hfil
  cases hselcase : sel with
  | nil =>
    rw [hselcase] at hsel
    have hmain : main env catalog st = ⟨none, st, none, [], true⟩ := by
      unfold main
      rw [hsel]
    rw [hmain]
    exact hsel
  | cons d0 ds0 =>
    subst hselcase
    rcases hrt : runTasks env (d0 :: ds0) st with ⟨m1, fs1, es1⟩
    have hes : es1 = [] := by rw [hrt] at hnoerr; exact hnoerr
    subst hes
    have hmain : main env catalog st = ⟨none, m1, some m1, fs1, false⟩ := by
      simp [main, hsel, hrt]
    rw [hmain]
    show selectDatasets catalog m1 = .ok []
    have hm1 : m1 = foldIns (d0 :: ds0) st := by
      have hfold := runTasks_noerr_fold env (d0 :: ds0) st hurl hnoerr
      rw [hrt] at hfold
      exact hfold
    subst hm1
    have hsub : (d0 :: ds0).Sublist catalog := by
      rw [hseleq]; exact List.filter_sublist catalog
    have hselnd : ((d0 :: ds0).map Dataset.identifier).Nodup :=
      List.Nodup.sublist (List.Sublist.map _ hsub) hnd
    have hmem_sel : ∀ d ∈ (d0 :: ds0), d ∈ catalog :=
      fun d hd => List.Sublist.subset hsub hd
    have hgood_m1 : ∀ d ∈ catalog, ∀ s,
        mLookup (foldIns (d0 :: ds0) st) d.identifier = some s →
          s.isSome ∧ d.modified.isSome := by
      intro d hd s hs
      refine ⟨?_, hmod d hd⟩
      by_cases hin : ∃ e ∈ (d0 :: ds0), e.identifier = d.identifier
      · obtain ⟨e, he, hei⟩ := hin
        have hlk := mLookup_foldIns_mem (d0 :: ds0) st e he hselnd
        rw [hei] at hlk
        rw [hlk] at hs
        have hes : e.modified = s := Option.some.inj hs
        rw [← hes]
        exact hmod e (hmem_sel e he)
      · push_neg at hin
        rw [mLookup_foldIns_not_mem (d0 :: ds0) st d.identifier hin] at hs
        exact hst (d.identifier, s) (mLookup_mem_values st _ s hs)
    rw [selectDatasets_eq_filter catalog _ hgood_m1]
    have hfilter : catalog.filter (selPredB (foldIns (d0 :: ds0) st)) = [] := by
      rw [List.filter_eq_nil_iff]
      intro d hd hP
      rw [selPredB, Bool.and_eq_true] at hP
      obtain ⟨hhosp, hupd⟩ := hP
      by_cases hdin : d ∈ (d0 :: ds0)
      · have hlk := mLookup_foldIns_mem (d0 :: ds0) st d hdin hselnd
        obtain ⟨lm, hlm⟩ := Option.isSome_iff_exists.mp (hmod d hd)
        rw [hlm] at hlk
        simp [updPredB, hlk, hlm, lexLt_irrefl] at hupd
      · have hnotsel : selPredB st d = false := by
          cases hc : selPredB st d with
          | false => rfl
          | true =>
            exfalso
            apply hdin
            rw [hseleq]
            exact List.mem_filter.mpr ⟨hd, hc⟩
        have hkeys : ∀ e ∈ (d0 :: ds0), e.identifier ≠ d.identifier := by
          intro e he heq
          have hed : e = d := List.inj_on_of_nodup_map hnd (hmem_sel e he) hd heq
          exact hdin (hed ▸ he)
        have hlk := mLookup_foldIns_not_mem (d0 :: ds0) st d.identifier hkeys
        have hupd_eq : updPredB (foldIns (d0 :: ds0) st) d = updPredB st d := by
          unfold updPredB
          rw [hlk]
        rw [hupd_eq] at hupd
        have hsP : selPredB st d = true := by
          rw [selPredB, Bool.and_eq_true]
          exact ⟨hhosp, hupd⟩
        rw [hnotsel] at hsP
        exact Bool.false_ne_true hsP
    rw [hfilter]

/-- Witness for claim C6 amended at a concrete one-dataset catalog. -/
theorem c6_amended_witness :
    selectDatasets [dOk] ((main envOk [dOk] []).persisted.getD []) = .ok [] :=
  c6_amended_idempotent envOk [dOk] [] [dOk] rfl (by decide) rfl (by decide)
    (by decide) (by decide)

end CMSIngest
